import Mathlib

/-!
Shallow embedding of the multi-statement query execution, result envelope,
query-history, update reconciliation and editable-grid logic of the
MacDbNavigator repository (client `sql-editor.tsx`, `query-results` component,
server `routes.ts`).

Strings manipulated character-by-character by the source (the statement
splitter, the cell-key codec, the table-name scanner) are embedded as
`List Char`; SQL text assembled by plain concatenation on the server is
embedded as Lean `String`.
-/

namespace MacDb

/-- The whitespace class used by JavaScript `String.prototype.trim` and the
regex class `\s`, restricted to the characters that can realistically occur in
SQL buffers (space, tab, newline, carriage return, form feed, vertical tab). -/
def jsSpace (c : Char) : Bool :=
  c = ' ' || c = '\t' || c = '\n' || c = '\r' || c = '\x0c' || c = '\x0b'

/-- Model of JavaScript `String.prototype.trim`: drop leading and trailing
whitespace. -/
def jsTrim (l : List Char) : List Char :=
  ((l.dropWhile jsSpace).reverse.dropWhile jsSpace).reverse

/-- Model of JavaScript `str.split(sep)` for a single-character separator:
split at every occurrence of `sep`, keeping empty fragments. -/
def jsSplit (sep : Char) : List Char → List (List Char)
  | [] => [[]]
  | c :: cs =>
    if c = sep then [] :: jsSplit sep cs
    else
      match jsSplit sep cs with
      | [] => [[c]]
      | h :: t => (c :: h) :: t

/-- Model of `sql-editor.tsx` `executeQuery` statement splitting:
`queryToExecute.split(";").map(stmt => stmt.trim()).filter(stmt => stmt.length > 0)`. -/
def splitStatements (l : List Char) : List (List Char) :=
  ((jsSplit ';' l).map jsTrim).filter (fun s => s ≠ [])

/-- The execution path chosen by `executeQuery` in `sql-editor.tsx`. -/
inductive ExecPath where
  /-- The empty-buffer early return (the "No query to execute" toast). -/
  | noQuery : ExecPath
  /-- The single-statement path, `executeQueryMutation.mutate q`. -/
  | single (q : List Char) : ExecPath
  /-- The multi-statement fan-out path, `executeMultipleStatements stmts`. -/
  | multi (stmts : List (List Char)) : ExecPath
  deriving DecidableEq, Repr

/-- Model of `sql-editor.tsx` `executeQuery`: chooses the text to execute and
dispatches to the single-statement or the multi-statement path.

The component keeps a state variable `selectedText` that only the fallback
textarea's `onSelect`/`onMouseUp`/`onKeyUp` handlers update.  When the Monaco
editor is mounted (`monaco = some (value, selection)`, the editor's buffer
text and its current selection), the text to execute is chosen from Monaco's
own block-scoped `const selectedText`, but the multi-statement guard below
still reads the *state* `selectedText` — two distinct variables in the
source, so a Monaco selection does not suppress the split. -/
def executeQuery (monaco : Option (List Char × List Char))
    (selectedText content : List Char) : ExecPath :=
  let queryToExecute :=
    match monaco with
    | some (value, sel) => if (jsTrim sel).isEmpty then value else sel
    | none => if (jsTrim selectedText).isEmpty then content else selectedText
  if (jsTrim queryToExecute).isEmpty then .noQuery
  else if (jsTrim selectedText).isEmpty && queryToExecute.contains ';' then
    let statements := splitStatements queryToExecute
    if statements.length > 1 then .multi statements
    else .single queryToExecute
  else .single queryToExecute

/-! ## Sequential executor and result envelope (`executeMultipleStatements`) -/

/-- The shape returned by the server `/query` endpoint on success
(`result` in `routes.ts`): column names, row objects, row count and the
per-statement wall-clock elapsed time measured by the endpoint. -/
structure QueryResult where
  columns : List String
  rows : List (List (String × String))
  rowCount : Nat
  executionTime : Nat
  deriving DecidableEq, Repr

/-- One entry of the `results` array accumulated by
`executeMultipleStatements`: `{ statement, result, index: i + 1 }`. -/
structure StmtEntry where
  statement : List Char
  result : QueryResult
  index : Nat
  deriving DecidableEq, Repr

/-- The synthetic top-level envelope `setQueryResults` receives in the
multi-statement case. -/
structure MultiEnvelope where
  columns : List String
  rows : List (List (String × String))
  rowCount : Nat
  executionTime : Nat
  multiStatementResults : List StmtEntry
  deriving DecidableEq, Repr

/-- The external execute capability: the outcome of the `i`-th sequential
`POST /api/connections/:id/query` call (0-based call number) for a given
statement text.  Indexing by call number reflects that the underlying
database session is stateful: each call's outcome may depend on the calls
made before it. -/
def ExecCap := Nat → List Char → Except String QueryResult

/-- The `for` loop of `executeMultipleStatements`, starting at call number
`i`.  Returns the trace of `(call number, statement)` requests actually sent,
in order, and either the accumulated `StmtEntry` list (all succeeded) or the
first error (`throw new Error` discards the partial `results`). -/
def execLoop (exec : ExecCap) : Nat → List (List Char) →
    List (Nat × List Char) × Except String (List StmtEntry)
  | _, [] => ([], .ok [])
  | i, s :: rest =>
    match exec i s with
    | .error e => ([(i, s)], .error e)
    | .ok r =>
      let (trace, res) := execLoop exec (i + 1) rest
      ((i, s) :: trace,
       res.map (fun entries => { statement := s, result := r, index := i + 1 } :: entries))

/-- Model of `sql-editor.tsx` `executeMultipleStatements`: run the statements
sequentially; on success of all of them build the sentinel envelope
`{ columns: ["Multi-Statement Results"], rows: [], rowCount: 0,
executionTime: 0, multiStatementResults: results }`; on the first failure no
envelope is produced (the `catch` block only logs).  The first component is
the trace of calls actually made. -/
def executeMultipleStatements (exec : ExecCap) (statements : List (List Char)) :
    List (Nat × List Char) × Option MultiEnvelope :=
  let (trace, res) := execLoop exec 0 statements
  (trace,
   match res with
   | .error _ => none
   | .ok results => some
       { columns := ["Multi-Statement Results"]
         rows := []
         rowCount := 0
         executionTime := 0
         multiStatementResults := results })

/-! ## Query endpoint history logging (`routes.ts`, `POST /:id/query`) -/

/-- The argument of each `storage.addQueryHistory` call in the query
endpoint. -/
structure HistoryEntry where
  query : List Char
  executionTime : Nat
  rowCount : Nat
  deriving DecidableEq, Repr

/-- What the database driver produced for one statement, before the endpoint
wraps it: either the columns/rows/row-count triple, or an error. -/
structure DriverResult where
  columns : List String
  rows : List (List (String × String))
  rowCount : Nat
  deriving DecidableEq, Repr

/-- Model of `routes.ts` `POST /api/connections/:id/query`, from the driver call to the
response: on success one `addQueryHistory` call with the statement text, the
measured elapsed time and the result's row count, then the result is returned;
on failure one `addQueryHistory` call with row count `0`, then the error is
returned.  `elapsed` is the wall-clock `Date.now() - startTime` measurement.
Returns the list of history entries appended and the response. -/
def queryEndpoint (query : List Char) (outcome : Except String DriverResult)
    (elapsed : Nat) : List HistoryEntry × Except String QueryResult :=
  match outcome with
  | .ok d =>
    ([{ query := query, executionTime := elapsed, rowCount := d.rowCount }],
     .ok { columns := d.columns, rows := d.rows, rowCount := d.rowCount,
           executionTime := elapsed })
  | .error e =>
    ([{ query := query, executionTime := elapsed, rowCount := 0 }],
     .error e)

/-! ## Update reconciliation (`routes.ts`, `POST /:id/table/:tableName/update`) -/

/-- A row object as sent in `originalData`: an ordered association list of
column name to value (`Object.keys` iteration order is insertion order). -/
def Row := List (String × String)

/-- Whether the row object has an `id` field (`row.id !== undefined`). -/
def rowId (row : Row) : Option String :=
  (row.find? (fun p => p.1 = "id")).map Prod.snd

/-- One element of the `changes` array sent by the client
(`{ rowIndex, column, newValue, oldValue }`). -/
structure Change where
  rowIndex : Nat
  column : String
  newValue : String
  oldValue : String
  deriving DecidableEq, Repr

/-- A parameterized SQL statement handed to the driver:
`(updateQuery, [newValue, ...whereValues])`. -/
structure UpdateStmt where
  query : String
  params : List String
  deriving DecidableEq, Repr

/-- One iteration of the mysql branch's `for (const change of changes)` loop:
WHERE is `id = ?` bound to the original row's `id` when present, otherwise the
conjunction of `` `col` = ? `` over every column of the original row; SET
assigns exactly the change's single column.  (`originalData[rowIndex]` on an
out-of-range index is a runtime error in the source; it is totalized here
with the empty row.) -/
def mysqlUpdateFor (tableName : String) (originalData : List Row)
    (change : Change) : UpdateStmt :=
  let originalRow := (originalData.get? change.rowIndex).getD []
  let (whereClause, whereValues) :=
    match rowId originalRow with
    | some v => ("id = ?", [v])
    | none =>
      (String.intercalate " AND "
         (originalRow.map (fun p => "`" ++ p.1 ++ "` = ?")),
       originalRow.map Prod.snd)
  { query := "UPDATE `" ++ tableName ++ "` SET `" ++ change.column ++
             "` = ? WHERE " ++ whereClause
    params := change.newValue :: whereValues }

/-- The mysql branch's loop over `changes`: each change's UPDATE is awaited
before the next iteration, so the statements are issued sequentially in
iteration order. -/
def mysqlUpdates (tableName : String) (originalData : List Row) :
    List Change → List UpdateStmt
  | [] => []
  | change :: rest =>
    mysqlUpdateFor tableName originalData change ::
      mysqlUpdates tableName originalData rest

/-- Placeholders `$2, $3, ...` for the postgresql all-columns WHERE clause
(`paramIndex` starts at 2 because `$1` is the new value). -/
def pgPlaceholders (cols : List String) (paramIndex : Nat) : List String :=
  match cols with
  | [] => []
  | c :: rest =>
    ("\x22" ++ c ++ "\x22 = $" ++ toString paramIndex) ::
      pgPlaceholders rest (paramIndex + 1)

/-- One iteration of the postgresql branch's loop: WHERE is `id = $2` when the
original row has an `id` field, otherwise the conjunction of
`"col" = $n` over every column; the table name is schema-qualified when a
schema is supplied; SET assigns exactly the change's single column. -/
def pgUpdateFor (tableName : String) (schema : Option String)
    (originalData : List Row) (change : Change) : UpdateStmt :=
  let originalRow := (originalData.get? change.rowIndex).getD []
  let (whereClause, whereValues) :=
    match rowId originalRow with
    | some v => ("id = $2", [v])
    | none =>
      (String.intercalate " AND "
         (pgPlaceholders (originalRow.map Prod.fst) 2),
       originalRow.map Prod.snd)
  let fullTableName :=
    match schema with
    | some s => "\x22" ++ s ++ "\x22.\x22" ++ tableName ++ "\x22"
    | none => "\x22" ++ tableName ++ "\x22"
  { query := "UPDATE " ++ fullTableName ++ " SET \x22" ++ change.column ++
             "\x22 = $1 WHERE " ++ whereClause
    params := change.newValue :: whereValues }

/-- The postgresql branch's loop over `changes`, sequential in iteration
order. -/
def pgUpdates (tableName : String) (schema : Option String)
    (originalData : List Row) : List Change → List UpdateStmt
  | [] => []
  | change :: rest =>
    pgUpdateFor tableName schema originalData change ::
      pgUpdates tableName schema originalData rest

/-! ## Table-name inference (`query-results` component)

`const tableName = statement.match(/(?:from|into|update)\s+(\w+)/i)?.[1];`
modelled as a left-to-right scan: at each position try the alternatives
`from`, `into`, `update` case-insensitively; on a keyword match require at
least one whitespace character and then capture the maximal nonempty run of
word characters.  (Backtracking never helps here: `\s` and `\w` are disjoint
classes, so `\s+` consuming maximally is equivalent to any other split.) -/

/-- The regex class `\w` = `[A-Za-z0-9_]`. -/
def wordChar (c : Char) : Bool :=
  c.isAlphanum || c = '_'

/-- Case-insensitive keyword match at the start of `s`; on success returns
the remainder after the keyword. -/
def stripKeyword (kw : List Char) (s : List Char) : Option (List Char) :=
  if kw.isPrefixOf (s.map Char.toLower) then some (s.drop kw.length) else none

/-- After a matched keyword: `\s+(\w+)` — at least one whitespace character,
then the captured maximal nonempty word. -/
def captureAfterKeyword (rest : List Char) : Option (List Char) :=
  match rest with
  | [] => none
  | c :: _ =>
    if jsSpace c then
      let word := (rest.dropWhile jsSpace).takeWhile wordChar
      if word = [] then none else some word
    else none

/-- Try the alternation `(?:from|into|update)\s+(\w+)` anchored at the start
of `s`. -/
def tryMatchAt (s : List Char) : Option (List Char) :=
  ((stripKeyword "from".toList s).bind captureAfterKeyword) <|>
  ((stripKeyword "into".toList s).bind captureAfterKeyword) <|>
  ((stripKeyword "update".toList s).bind captureAfterKeyword)

/-- The unanchored match: scan positions left to right and return the first
capture, `none` when the pattern matches nowhere. -/
def findTable : List Char → Option (List Char)
  | [] => none
  | c :: rest => tryMatchAt (c :: rest) <|> findTable rest

/-! ## Pending-cell-edit collection and cell-key codec (`query-results`) -/

/-- Decimal rendering of a natural number, as JavaScript template
interpolation `${rowIndex}` produces it. -/
def natChars (n : Nat) : List Char :=
  if h : n < 10 then [Char.ofNat (48 + n)]
  else natChars (n / 10) ++ [Char.ofNat (48 + n % 10)]
  decreasing_by exact Nat.div_lt_self (by omega) (by omega)

/-- Model of JavaScript `parseInt` on the strings reachable here: the leading
run of decimal digits, `none` (NaN) when there is none.  (Sign handling and
leading whitespace never arise: the input is a template-built key part.) -/
def parseIntChars (l : List Char) : Option Nat :=
  let ds := l.takeWhile Char.isDigit
  if ds = [] then none
  else some (ds.foldl (fun acc c => 10 * acc + (c.toNat - 48)) 0)

/-- The cell key built by `handleCellBlur`: the row index rendered in decimal, a dash, then the column name. -/
def encodeKey (rowIndex : Nat) (column : List Char) : List Char :=
  natChars rowIndex ++ '-' :: column

/-- JavaScript `Map.prototype.set` on an insertion-ordered association list:
an existing key keeps its position and gets the new value, a new key is
appended. -/
def mapSet (m : List (List Char × List Char)) (k v : List Char) :
    List (List Char × List Char) :=
  if m.any (fun p => p.1 = k) then
    m.map (fun p => if p.1 = k then (k, v) else p)
  else m ++ [(k, v)]

/-- A fetched row as the grid sees it: column name → displayed value. -/
def GridRow := List (List Char × List Char)

/-- The `useState` pieces of the `SingleQueryResult` component that the edit
flow touches. -/
structure GridState where
  editingCell : Option (Nat × List Char)
  editingValue : List Char
  pendingChanges : List (List Char × List Char)

/-- The grid's initial state: nothing being edited, no pending changes. -/
def initialGridState : GridState :=
  { editingCell := none, editingValue := [], pendingChanges := [] }

/-- The user/UI events that drive the edit flow. -/
inductive GridOp where
  /-- A click on cell `(rowIndex, column)` whose displayed value is `value`
  (`none` when the cell's value is null/undefined). -/
  | click (rowIndex : Nat) (column : List Char) (value : Option (List Char))
  /-- Typing in the edit input (`onChange`). -/
  | typeValue (v : List Char)
  /-- Blur or Enter: `handleCellBlur`. -/
  | blur
  /-- Escape: leave edit mode without recording. -/
  | escape
  /-- The update mutation's `onSuccess`: `setPendingChanges(new Map())`. -/
  | saveSuccess
  /-- The `discardChanges` handler. -/
  | discard

/-- The original value `currentRows[i][c]` seen by `handleCellBlur`, `none`
when the row or the field is absent. -/
def origValue (rows : List GridRow) (i : Nat) (c : List Char) :
    Option (List Char) :=
  (rows.get? i).bind (fun r => (r.find? (fun p => p.1 = c)).map Prod.snd)

/-- One step of the edit flow.  `tableName` is the inference result for the
statement that produced this grid: the cell `onClick` handler is
`() => tableName && handleCellClick(...)`, so with no table name a click
does nothing. -/
def step (tableName : Option (List Char)) (rows : List GridRow)
    (st : GridState) : GridOp → GridState
  | .click i c v =>
    if tableName.isSome then
      { st with editingCell := some (i, c), editingValue := v.getD [] }
    else st
  | .typeValue v => { st with editingValue := v }
  | .blur =>
    match st.editingCell with
    | some (i, c) =>
      let orig := origValue rows i c
      let pending :=
        if orig ≠ some st.editingValue then
          mapSet st.pendingChanges (encodeKey i c) st.editingValue
        else st.pendingChanges
      { editingCell := none, editingValue := [], pendingChanges := pending }
    | none => { st with editingCell := none, editingValue := [] }
  | .escape => { st with editingCell := none, editingValue := [] }
  | .saveSuccess => { st with pendingChanges := [] }
  | .discard => { editingCell := none, editingValue := [], pendingChanges := [] }

/-- Run a sequence of grid events from a state. -/
def runGrid (tableName : Option (List Char)) (rows : List GridRow)
    (st : GridState) (ops : List GridOp) : GridState :=
  ops.foldl (step tableName rows) st

/-- One element of the `changes` array `saveChanges` builds from a pending
entry: `const [rowIndexStr, column] = cellKey.split('-')`, `parseInt`, and
the original row's value for the decoded column.  A missing destructuring
target or a NaN index is `none`. -/
structure SaveChange where
  rowIndex : Option Nat
  column : Option (List Char)
  newValue : List Char
  oldValue : Option (List Char)
  deriving DecidableEq, Repr

/-- Decode one pending entry the way `saveChanges` does. -/
def decodePending (rows : List GridRow) (entry : List Char × List Char) :
    SaveChange :=
  let parts := jsSplit '-' entry.1
  let rowIndex := (parts.get? 0).bind parseIntChars
  let column := parts.get? 1
  { rowIndex := rowIndex
    column := column
    newValue := entry.2
    oldValue :=
      match rowIndex, column with
      | some i, some c => origValue rows i c
      | _, _ => none }

/-- Model of `saveChanges`: early return (`none`, nothing sent) when there are no
pending changes or no inferred table name; otherwise the decoded `changes`
array in pending-map iteration order. -/
def saveChanges (tableName : Option (List Char)) (rows : List GridRow)
    (pending : List (List Char × List Char)) : Option (List SaveChange) :=
  if pending.isEmpty || tableName.isNone then none
  else some (pending.map (decodePending rows))

/-! ## Lemmas about the splitter -/

theorem jsSplit_ne_nil (sep : Char) (l : List Char) : jsSplit sep l ≠ [] := by
  induction l with
  | nil => simp [jsSplit]
  | cons c cs ih =>
    simp only [jsSplit]
    split
    · simp
    · match h : jsSplit sep cs with
      | [] => simp
      | h' :: t => simp

/-- The source-level model `jsSplit` of `String.split` agrees with Batteries
`List.splitOn`. -/
theorem jsSplit_eq_splitOn (sep : Char) (l : List Char) :
    jsSplit sep l = l.splitOn sep := by
  induction l with
  | nil => simp [jsSplit, List.splitOn, List.splitOnP_nil]
  | cons c cs ih =>
    simp only [List.splitOn] at ih ⊢
    rw [List.splitOnP_cons]
    by_cases hc : c = sep
    · simp [jsSplit, hc, ih]
    · rcases h : jsSplit sep cs with _ | ⟨h', t⟩
      · exact absurd h (jsSplit_ne_nil sep cs)
      · simp only [jsSplit, h, if_neg hc, ← ih, h, beq_iff_eq, if_neg hc,
          List.modifyHead]

theorem jsSplit_of_not_mem {sep : Char} {l : List Char} (h : sep ∉ l) :
    jsSplit sep l = [l] := by
  induction l with
  | nil => simp [jsSplit]
  | cons c cs ih =>
    simp only [List.mem_cons, not_or] at h
    have hne : ¬ c = sep := fun hc => h.1 hc.symm
    simp only [jsSplit, if_neg hne, ih h.2]

theorem jsSplit_append {sep : Char} {a : List Char} (b : List Char)
    (h : sep ∉ a) : jsSplit sep (a ++ sep :: b) = a :: jsSplit sep b := by
  induction a with
  | nil => simp [jsSplit]
  | cons c cs ih =>
    simp only [List.mem_cons, not_or] at h
    have hne : ¬ c = sep := fun hc => h.1 hc.symm
    rw [List.cons_append]
    rcases hsplit : jsSplit sep (cs ++ sep :: b) with _ | ⟨h', t⟩
    · exact absurd hsplit (jsSplit_ne_nil sep _)
    · have := ih h.2
      rw [hsplit] at this
      simp only [jsSplit, hsplit, if_neg hne]
      rw [List.cons.injEq] at this ⊢
      exact ⟨by rw [this.1], this.2⟩

theorem mem_of_mem_jsSplit {sep : Char} {l f : List Char} {c : Char}
    (hf : f ∈ jsSplit sep l) (hc : c ∈ f) : c ∈ l := by
  induction l generalizing f with
  | nil =>
    simp [jsSplit] at hf
    subst hf
    simp at hc
  | cons a as ih =>
    simp only [jsSplit] at hf
    split at hf
    · rcases List.mem_cons.mp hf with h | h
      · subst h; simp at hc
      · exact List.mem_cons_of_mem _ (ih h hc)
    · rcases hsplit : jsSplit sep as with _ | ⟨h', t⟩
      · exact absurd hsplit (jsSplit_ne_nil sep as)
      · rw [hsplit] at hf
        rcases List.mem_cons.mp hf with hmem | hmem
        · subst hmem
          rcases List.mem_cons.mp hc with hca | hcf
          · exact hca ▸ List.mem_cons_self a as
          · exact List.mem_cons_of_mem _
              (ih (hsplit ▸ List.mem_cons_self h' t) hcf)
        · exact List.mem_cons_of_mem _
            (ih (hsplit ▸ List.mem_cons_of_mem h' hmem) hc)

theorem jsSplit_head {sep : Char} (l : List Char) :
    (jsSplit sep l).get? 0 = some (l.takeWhile (fun c => c ≠ sep)) := by
  induction l with
  | nil => simp [jsSplit]
  | cons c cs ih =>
    by_cases hc : c = sep
    · simp [jsSplit, hc, List.takeWhile_cons]
    · rcases hsplit : jsSplit sep cs with _ | ⟨h', t⟩
      · exact absurd hsplit (jsSplit_ne_nil sep cs)
      · rw [hsplit] at ih
        simp only [List.get?, Option.some.injEq] at ih
        simp only [jsSplit, hsplit, if_neg hc, List.takeWhile_cons,
          List.get?, Option.some.injEq]
        rw [if_pos (by simpa using hc), ih]

theorem jsTrim_eq_nil_iff {l : List Char} :
    jsTrim l = [] ↔ ∀ c ∈ l, jsSpace c := by
  unfold jsTrim
  rw [List.reverse_eq_nil_iff, List.dropWhile_eq_nil_iff]
  constructor
  · intro h c hc
    have hsplit := List.takeWhile_append_dropWhile (p := jsSpace) (l := l)
    rcases (List.mem_append.mp (hsplit ▸ hc)) with hm | hm
    · exact List.mem_takeWhile_imp hm
    · exact h c (by simpa using hm)
  · intro h c hc
    exact h c (List.dropWhile_sublist (p := jsSpace) (l := l) |>.mem
      (by simpa using hc))

/-- A submission none of whose split fragments survives trimming is
whitespace-only. -/
theorem jsTrim_ne_nil_of_splitStatements_ne_nil {l : List Char}
    (h : splitStatements l ≠ []) : jsTrim l ≠ [] := by
  intro htrim
  apply h
  unfold splitStatements
  rw [List.filter_eq_nil_iff]
  intro a ha
  rcases List.mem_map.mp ha with ⟨f, hf, rfl⟩
  simp only [ne_eq, decide_not, Bool.not_eq_true', decide_eq_false_iff_not,
    not_not]
  rw [jsTrim_eq_nil_iff]
  intro c hc
  exact jsTrim_eq_nil_iff.mp htrim c (mem_of_mem_jsSplit hf hc)

/-- A submission that splits into at least two non-empty fragments contains a
semicolon. -/
theorem contains_semi_of_two_le {l : List Char}
    (h : 2 ≤ (splitStatements l).length) : l.contains ';' = true := by
  by_contra hc
  have hmem : ';' ∉ l := fun hm =>
    hc (by simp [List.contains, List.elem_iff, hm])
  unfold splitStatements at h
  rw [jsSplit_of_not_mem hmem] at h
  by_cases ht : jsTrim l = []
  · simp [List.filter, ht] at h
  · simp [List.filter, ht] at h

/-- Unfolding of `executeQuery` in the fallback-textarea configuration with
no selection, written without the intermediate `let`s. -/
theorem executeQuery_no_selection (content : List Char) :
    executeQuery none [] content =
      (if (jsTrim content).isEmpty then .noQuery
       else if content.contains ';' then
         (if (splitStatements content).length > 1 then
            .multi (splitStatements content)
          else .single content)
       else .single content) := rfl

/-- With the Monaco editor mounted and its selection empty, `executeQuery`
behaves exactly as the textarea configuration with no selection. -/
theorem executeQuery_monaco_no_selection (content : List Char) :
    executeQuery (some (content, [])) [] content =
      executeQuery none [] content := rfl

/-! ## Lemmas about the sequential executor -/

/-- When every statement's call succeeds, the loop issues exactly one call per
statement, in order, and accumulates one entry per statement carrying that
call's own result and the 1-based index. -/
theorem execLoop_ok (stmts : List (List Char)) (exec : ExecCap) (i : Nat)
    (h : ∀ j sj, stmts.get? j = some sj → ∃ r, exec (i + j) sj = .ok r) :
    ∃ entries,
      execLoop exec i stmts = ((List.range' i stmts.length).zip stmts, .ok entries) ∧
      entries.map (fun en => en.statement) = stmts ∧
      entries.map (fun en => en.index) = List.range' (i + 1) stmts.length ∧
      (∀ j en, entries.get? j = some en →
        exec (i + j) en.statement = .ok en.result) := by
  induction stmts generalizing i with
  | nil =>
    refine ⟨[], ?_, rfl, rfl, ?_⟩
    · simp [execLoop]
    · intro j en hj
      simp at hj
  | cons s rest ih =>
    obtain ⟨r, hr⟩ := h 0 s rfl
    rw [Nat.add_zero] at hr
    obtain ⟨entries', heq, hstmts, hidx, hres⟩ := ih (i + 1)
      (fun j sj hj => by
        obtain ⟨r', hr'⟩ := h (j + 1) sj hj
        exact ⟨r', by rwa [show i + (j + 1) = i + 1 + j by omega] at hr'⟩)
    refine ⟨{ statement := s, result := r, index := i + 1 } :: entries', ?_, ?_, ?_, ?_⟩
    · simp only [execLoop, hr, heq, List.length_cons]
      rw [List.range'_succ i rest.length 1]
      simp [Except.map, List.zip_cons_cons]
    · simp [hstmts]
    · simp only [List.map_cons, hidx, List.length_cons]
      rw [List.range'_succ (i + 1) rest.length 1]
    · intro j en hj
      cases j with
      | zero =>
        simp at hj
        subst hj
        simpa using hr
      | succ j' =>
        simp only [List.get?] at hj
        have := hres j' en hj
        rwa [show i + 1 + j' = i + (j' + 1) by omega] at this

/-- When the call for statement `k` fails and all earlier calls succeed, the
loop issues exactly the calls `0..k` (nothing after the failure) and
propagates the error, discarding the accumulated entries. -/
theorem execLoop_err (stmts : List (List Char)) (exec : ExecCap) (i k : Nat)
    (sk : List Char) (e : String)
    (hk : stmts.get? k = some sk)
    (hok : ∀ j sj, j < k → stmts.get? j = some sj → ∃ r, exec (i + j) sj = .ok r)
    (herr : exec (i + k) sk = .error e) :
    execLoop exec i stmts =
      ((List.range' i (k + 1)).zip (stmts.take (k + 1)), .error e) := by
  induction stmts generalizing i k with
  | nil => simp at hk
  | cons s rest ih =>
    cases k with
    | zero =>
      simp only [List.get?, Option.some.injEq] at hk
      subst hk
      rw [Nat.add_zero] at herr
      simp only [execLoop, herr]
      rw [List.range'_succ i 0 1]
      simp
    | succ k' =>
      obtain ⟨r, hr⟩ := hok 0 s (by omega) rfl
      rw [Nat.add_zero] at hr
      have hk' : rest.get? k' = some sk := hk
      have herr' : exec (i + 1 + k') sk = .error e := by
        rwa [show i + (k' + 1) = i + 1 + k' by omega] at herr
      have hok' : ∀ j sj, j < k' → rest.get? j = some sj →
          ∃ r', exec (i + 1 + j) sj = .ok r' := by
        intro j sj hj hjget
        obtain ⟨r', hr'⟩ := hok (j + 1) sj (by omega) hjget
        exact ⟨r', by rwa [show i + (j + 1) = i + 1 + j by omega] at hr'⟩
      have := ih (i + 1) k' hk' hok' herr'
      simp only [execLoop, hr, this]
      rw [List.range'_succ i (k' + 1) 1]
      simp [Except.map, List.zip_cons_cons]

/-! ## Claim theorems -/

/-- C1: a submission with no active selection — in either the textarea
configuration or the Monaco configuration with an empty editor selection —
that splits into `n ≥ 2`
non-empty `;`-delimited fragments dispatches to the multi-statement path with
exactly those trimmed fragments; when every call succeeds, the executor
issues exactly `n` execute calls, strictly in submission order (call `j`
carries fragment `j`, and the loop awaits each response before the next call
is made — the trace is built sequentially by construction), and produces the
multi-statement envelope: placeholder top-level column list
`["Multi-Statement Results"]`, empty top-level rows, `rowCount = 0`,
top-level `executionTime = 0` (not a summed total), and per-statement entries
carrying the trimmed fragment texts in original order with 1-based indices,
each entry holding exactly its own call's result — hence its own
per-statement elapsed-time measurement. -/
theorem multiStatement_success_envelope (content : List Char) (exec : ExecCap)
    (hn : 2 ≤ (splitStatements content).length)
    (hok : ∀ j sj, (splitStatements content).get? j = some sj →
      ∃ r, exec j sj = .ok r) :
    executeQuery none [] content = .multi (splitStatements content) ∧
    executeQuery (some (content, [])) [] content =
      .multi (splitStatements content) ∧
    ∃ env, executeMultipleStatements exec (splitStatements content) =
        ((List.range (splitStatements content).length).zip
          (splitStatements content), some env) ∧
      env.columns = ["Multi-Statement Results"] ∧ env.rows = [] ∧
      env.rowCount = 0 ∧ env.executionTime = 0 ∧
      env.multiStatementResults.map (fun en => en.statement) =
        splitStatements content ∧
      env.multiStatementResults.map (fun en => en.index) =
        List.range' 1 (splitStatements content).length ∧
      (∀ j en, env.multiStatementResults.get? j = some en →
        exec j en.statement = .ok en.result) := by
  have hne : splitStatements content ≠ [] := by
    intro h
    rw [h] at hn
    simp at hn
  have htrim := jsTrim_ne_nil_of_splitStatements_ne_nil hne
  have hcont := contains_semi_of_two_le hn
  have hdispatch : executeQuery none [] content = .multi (splitStatements content) := by
    rw [executeQuery_no_selection,
      if_neg (fun he => htrim (List.isEmpty_iff.mp he)), if_pos hcont,
      if_pos (by omega)]
  refine ⟨hdispatch, ?_, ?_⟩
  · rw [executeQuery_monaco_no_selection]
    exact hdispatch
  · obtain ⟨entries, heq, hstmts, hidx, hres⟩ :=
      execLoop_ok (splitStatements content) exec 0
        (fun j sj hj => by simpa using hok j sj hj)
    refine ⟨{ columns := ["Multi-Statement Results"], rows := [],
              rowCount := 0, executionTime := 0,
              multiStatementResults := entries },
      ?_, rfl, rfl, rfl, rfl, hstmts, by simpa using hidx,
      fun j en hj => by simpa using hres j en hj⟩
    simp only [executeMultipleStatements, heq]
    rw [List.range_eq_range']

/-- Witness for C1 at a concrete two-statement submission with an
all-succeeding execute capability. -/
theorem multiStatement_success_envelope_witness :
    executeQuery none [] ("a; b".toList) =
      .multi (splitStatements ("a; b".toList)) :=
  (multiStatement_success_envelope ("a; b".toList)
    (fun _ _ => .ok { columns := ["x"], rows := [], rowCount := 1,
                      executionTime := 7 })
    (by decide) (fun _ _ _ => ⟨_, rfl⟩)).1

/-- C2: in multi-statement execution, when statement `k` fails and every
earlier statement succeeded, the executor attempts exactly statements
`0..k` — nothing after the failing one — and produces no envelope: the
partial results accumulated before the failure are discarded and the
operation resolves as a failure. -/
theorem multiStatement_stops_on_failure (stmts : List (List Char))
    (exec : ExecCap) (k : Nat) (sk : List Char) (e : String)
    (hk : stmts.get? k = some sk)
    (hok : ∀ j sj, j < k → stmts.get? j = some sj → ∃ r, exec j sj = .ok r)
    (herr : exec k sk = .error e) :
    executeMultipleStatements exec stmts =
      ((List.range (k + 1)).zip (stmts.take (k + 1)), none) := by
  have h := execLoop_err stmts exec 0 k sk e hk
    (fun j sj hj hg => by simpa using hok j sj hj hg) (by simpa using herr)
  simp only [executeMultipleStatements, h]
  rw [List.range_eq_range']

/-- Witness for C2: statement 1 of 3 fails, so only statements 0 and 1 are
attempted and no envelope is produced. -/
theorem multiStatement_stops_on_failure_witness :
    executeMultipleStatements
      (fun i _ => if i = 1 then .error "boom"
        else .ok { columns := [], rows := [], rowCount := 0,
                   executionTime := 0 })
      [['a'], ['b'], ['c']] =
      ((List.range 2).zip [['a'], ['b']], none) :=
  multiStatement_stops_on_failure [['a'], ['b'], ['c']] _ 1 ['b'] "boom" rfl
    (fun j _ hj _ => by interval_cases j; exact ⟨_, rfl⟩) rfl

/-- C3 counterexample: the blank submission contains no `;`, yet the
system does not take the single-statement execution path — the empty-buffer
guard returns before any dispatch. -/
theorem blank_submission_counterexample :
    executeQuery none [] [] = ExecPath.noQuery := rfl

/-- C3 (amended): the splitter returns the ordered trimmed `;`-fragments
with empty fragments discarded (it agrees with splitting on `;` as the sole
separator, trimming, then dropping empties); and any submission that either
contains no `;` and is not whitespace-only, or whose split yields exactly one
non-empty fragment, takes the single-statement execution path — never the
multi-statement fan-out.  (Whitespace-only submissions are rejected outright
and take neither path.) -/
theorem splitter_single_path :
    (∀ l : List Char,
      splitStatements l =
        ((l.splitOn ';').map jsTrim).filter (fun s => s ≠ [])) ∧
    (∀ content : List Char,
      (';' ∉ content ∧ jsTrim content ≠ []) ∨
        (splitStatements content).length = 1 →
      executeQuery none [] content = .single content ∧
      executeQuery (some (content, [])) [] content = .single content) := by
  constructor
  · intro l
    unfold splitStatements
    rw [jsSplit_eq_splitOn]
  · intro content h
    have htrim : jsTrim content ≠ [] := by
      rcases h with ⟨_, ht⟩ | hlen
      · exact ht
      · refine jsTrim_ne_nil_of_splitStatements_ne_nil ?_
        intro hnil
        rw [hnil] at hlen
        simp at hlen
    have hsingle : executeQuery none [] content = .single content := by
      rw [executeQuery_no_selection,
        if_neg (fun he => htrim (List.isEmpty_iff.mp he))]
      rcases h with ⟨hnot, _⟩ | hlen
      · rw [if_neg (fun hc =>
          hnot (by simpa [List.contains, List.elem_iff] using hc))]
      · cases hc : content.contains ';'
        · rw [if_neg (by simp)]
        · rw [if_pos rfl, if_neg (by omega)]
    exact ⟨hsingle, by rw [executeQuery_monaco_no_selection]; exact hsingle⟩

/-- Witness for C3 (amended) at `"SELECT 1"`. -/
theorem splitter_single_path_witness :
    executeQuery none [] ("SELECT 1".toList) = .single ("SELECT 1".toList) ∧
    executeQuery (some ("SELECT 1".toList, [])) [] ("SELECT 1".toList) =
      .single ("SELECT 1".toList) :=
  splitter_single_path.2 ("SELECT 1".toList) (Or.inl ⟨by decide, by decide⟩)

/-- C8 counterexample: under the Monaco editor, the split guard reads the
component-state `selectedText` (updated only by the fallback textarea, so
empty while Monaco is mounted), not Monaco's own selection — a Monaco
selection `"a; b"` containing a `;` is therefore split and fanned out through
the multi-statement path rather than executed verbatim as one statement. -/
theorem monaco_selection_split_counterexample :
    executeQuery (some ("x".toList, "a; b".toList)) [] ("x".toList) =
      ExecPath.multi [['a'], ['b']] := rfl

/-- C8 (amended): in the fallback-textarea editor, the state selection is
also the selection the split guard reads, so a non-empty selection is
executed verbatim as one statement regardless of embedded `;`.  Under the
Monaco editor, the text to execute is Monaco's block-scoped selection but the
split guard reads the (empty) component-state selection, so a Monaco
selection is executed verbatim only when its split yields at most one
non-empty fragment; a Monaco selection splitting into two or more non-empty
fragments is fanned out through the multi-statement path.  Only the full,
unselected buffer — or a Monaco selection — is subject to splitting. -/
theorem selection_execution_paths :
    (∀ content sel : List Char, jsTrim sel ≠ [] →
      executeQuery none sel content = .single sel) ∧
    (∀ value sel : List Char, jsTrim sel ≠ [] →
      (splitStatements sel).length ≤ 1 →
      executeQuery (some (value, sel)) [] value = .single sel) ∧
    (∀ value sel : List Char, 2 ≤ (splitStatements sel).length →
      executeQuery (some (value, sel)) [] value =
        .multi (splitStatements sel)) := by
  refine ⟨?_, ?_, ?_⟩
  · intro content sel h
    have hne : (jsTrim sel).isEmpty = false := by
      cases he : (jsTrim sel).isEmpty
      · rfl
      · exact absurd (List.isEmpty_iff.mp he) h
    unfold executeQuery
    simp only [hne, Bool.false_eq_true, ite_false, Bool.false_and]
  · intro value sel h hlen
    have hne : (jsTrim sel).isEmpty = false := by
      cases he : (jsTrim sel).isEmpty
      · rfl
      · exact absurd (List.isEmpty_iff.mp he) h
    unfold executeQuery
    simp only [hne, Bool.false_eq_true, ite_false]
    cases hc : sel.contains ';'
    · rw [if_neg (by simp)]
    · rw [if_pos (by decide), if_neg (by omega)]
  · intro value sel hn
    have hne : splitStatements sel ≠ [] := by
      intro h
      rw [h] at hn
      simp at hn
    have htrim := jsTrim_ne_nil_of_splitStatements_ne_nil hne
    have hcont := contains_semi_of_two_le hn
    have hempty : (jsTrim sel).isEmpty = false := by
      cases he : (jsTrim sel).isEmpty
      · rfl
      · exact absurd (List.isEmpty_iff.mp he) htrim
    unfold executeQuery
    simp only [hempty, Bool.false_eq_true, ite_false]
    rw [if_pos (by rw [hcont]; decide), if_pos (by omega)]

/-- Witness for C8 (amended): in the textarea configuration a selection
containing `;` is still executed verbatim as a single statement. -/
theorem selection_execution_paths_witness :
    executeQuery none ("a; b".toList) ("x".toList) =
      .single ("a; b".toList) :=
  selection_execution_paths.1 ("x".toList) ("a; b".toList) (by decide)

/-- C6: every attempted statement execution appends exactly one history
entry; the entry carries the statement text actually sent to the endpoint
(in a multi-statement batch each call's body is the individual split
fragment — see the C1 theorem's trace — not the original unsplit buffer),
the elapsed-time measurement, and the row count; a failed execution's entry
records row count `0` (and the failure is still logged — the audit-trail
behavior). -/
theorem history_one_entry_per_attempt (q : List Char)
    (outcome : Except String DriverResult) (elapsed : Nat) :
    ∃ entry, (queryEndpoint q outcome elapsed).1 = [entry] ∧
      entry.query = q ∧ entry.executionTime = elapsed ∧
      (∀ d, outcome = .ok d → entry.rowCount = d.rowCount ∧
        (queryEndpoint q outcome elapsed).2 =
          .ok { columns := d.columns, rows := d.rows, rowCount := d.rowCount,
                executionTime := elapsed }) ∧
      (∀ e, outcome = .error e → entry.rowCount = 0 ∧
        (queryEndpoint q outcome elapsed).2 = .error e) := by
  cases outcome with
  | ok d =>
    refine ⟨{ query := q, executionTime := elapsed, rowCount := d.rowCount },
      rfl, rfl, rfl, ?_, ?_⟩
    · intro d' hd
      cases hd
      exact ⟨rfl, rfl⟩
    · intro e he
      cases he
  | error e =>
    refine ⟨{ query := q, executionTime := elapsed, rowCount := 0 },
      rfl, rfl, rfl, ?_, ?_⟩
    · intro d' hd
      cases hd
    · intro e' he
      cases he
      exact ⟨rfl, rfl⟩

/-- Witness for C6 at a concrete failed execution. -/
theorem history_one_entry_per_attempt_witness :
    ∃ entry,
      (queryEndpoint ['q'] (Except.error "x") 5).1 = [entry] ∧
      entry.query = ['q'] ∧ entry.executionTime = 5 ∧
      (∀ d : DriverResult,
        (Except.error "x" : Except String DriverResult) = Except.ok d →
        entry.rowCount = d.rowCount ∧
        (queryEndpoint ['q'] (Except.error "x") 5).2 =
          .ok { columns := d.columns, rows := d.rows, rowCount := d.rowCount,
                executionTime := 5 }) ∧
      (∀ e, (Except.error "x" : Except String DriverResult) = Except.error e →
        entry.rowCount = 0 ∧
        (queryEndpoint ['q'] (Except.error "x") 5).2 = .error e) :=
  history_one_entry_per_attempt ['q'] (.error "x") 5

/-- C4: for every change in an update batch, the generated UPDATE's WHERE
clause is the single predicate `id = ?` bound to the original row's `id`
value when the original snapshot row has an `id` field, and otherwise the
conjunction of equality predicates over every column/value pair of the
original snapshot (the pre-edit values, bound in snapshot order); the SET
clause assigns exactly the one edited column of the change and no unedited
column.  Holds in both the mysql and the postgresql branch. -/
theorem update_where_clause (t : String) (schema : Option String)
    (data : List Row) (change : Change) (row : Row)
    (hrow : (data.get? change.rowIndex).getD [] = row) :
    (∀ v, rowId row = some v →
      mysqlUpdateFor t data change =
        { query := "UPDATE `" ++ t ++ "` SET `" ++ change.column ++
                   "` = ? WHERE " ++ "id = ?"
          params := [change.newValue, v] } ∧
      pgUpdateFor t schema data change =
        { query := "UPDATE " ++
                   (match schema with
                    | some s => "\x22" ++ s ++ "\x22.\x22" ++ t ++ "\x22"
                    | none => "\x22" ++ t ++ "\x22") ++
                   " SET \x22" ++ change.column ++ "\x22 = $1 WHERE " ++
                   "id = $2"
          params := [change.newValue, v] }) ∧
    (rowId row = none →
      mysqlUpdateFor t data change =
        { query := "UPDATE `" ++ t ++ "` SET `" ++ change.column ++
                   "` = ? WHERE " ++
                   String.intercalate " AND "
                     (row.map (fun p => "`" ++ p.1 ++ "` = ?"))
          params := change.newValue :: row.map Prod.snd } ∧
      pgUpdateFor t schema data change =
        { query := "UPDATE " ++
                   (match schema with
                    | some s => "\x22" ++ s ++ "\x22.\x22" ++ t ++ "\x22"
                    | none => "\x22" ++ t ++ "\x22") ++
                   " SET \x22" ++ change.column ++ "\x22 = $1 WHERE " ++
                   String.intercalate " AND "
                     (pgPlaceholders (row.map Prod.fst) 2)
          params := change.newValue :: row.map Prod.snd }) := by
  constructor
  · intro v hv
    constructor
    · simp only [mysqlUpdateFor, hrow, hv]
    · simp only [pgUpdateFor, hrow, hv]
  · intro hv
    constructor
    · simp only [mysqlUpdateFor, hrow, hv]
    · simp only [pgUpdateFor, hrow, hv]

/-- Witness for C4, the spec's own no-`id` scenario: snapshot
`{name: "a", city: "X"}`, edit `name → "b"` — WHERE conjoins the pre-edit
values and SET touches only `name`. -/
theorem update_where_clause_witness :
    mysqlUpdateFor "t" [[("name", "a"), ("city", "X")]]
        { rowIndex := 0, column := "name", newValue := "b", oldValue := "a" } =
      { query := "UPDATE `t` SET `name` = ? WHERE `name` = ? AND `city` = ?"
        params := ["b", "a", "X"] } :=
  ((update_where_clause "t" none [[("name", "a"), ("city", "X")]]
      { rowIndex := 0, column := "name", newValue := "b", oldValue := "a" }
      [("name", "a"), ("city", "X")] rfl).2 rfl).1.trans (by rfl)

/-- C5 counterexample: a batch with two pending edits on the *same* row
(one edited row, `k = 2` edited cells) produces **two** single-column
UPDATEs, not one UPDATE setting both columns — the loop emits one UPDATE per
change (per edited cell), so "exactly one UPDATE operation per edited row
whose SET clause contains all edited columns" fails. -/
theorem one_update_per_row_counterexample :
    (mysqlUpdates "t" [[("a", "1"), ("b", "2")]]
        [{ rowIndex := 0, column := "a", newValue := "9", oldValue := "1" },
         { rowIndex := 0, column := "b", newValue := "8", oldValue := "2" }]).length = 2 ∧
    (([{ rowIndex := 0, column := "a", newValue := "9", oldValue := "1" },
       { rowIndex := 0, column := "b", newValue := "8", oldValue := "2" }] :
        List Change).map (fun c => c.rowIndex)).dedup = [0] ∧
    (mysqlUpdates "t" [[("a", "1"), ("b", "2")]]
        [{ rowIndex := 0, column := "a", newValue := "9", oldValue := "1" },
         { rowIndex := 0, column := "b", newValue := "8", oldValue := "2" }]).map
      (fun u => u.query) =
      ["UPDATE `t` SET `a` = ? WHERE `a` = ? AND `b` = ?",
       "UPDATE `t` SET `b` = ? WHERE `a` = ? AND `b` = ?"] := by
  refine ⟨rfl, by decide, ?_⟩
  rfl

/-- C5 (amended): reconciliation produces exactly one UPDATE per pending
cell edit (per element of `changes`), in iteration order over the
pending-edit collection, each UPDATE's SET clause naming only that edit's
single column; a row with `k` edited cells therefore yields `k` separate
single-column UPDATEs, issued sequentially and independently.  Holds in both
engine branches. -/
theorem one_update_per_pending_edit (t : String) (schema : Option String)
    (data : List Row) (changes : List Change) :
    mysqlUpdates t data changes = changes.map (mysqlUpdateFor t data) ∧
    pgUpdates t schema data changes = changes.map (pgUpdateFor t schema data) ∧
    (mysqlUpdates t data changes).length = changes.length ∧
    (∀ k ch, changes.get? k = some ch →
      (mysqlUpdates t data changes).get? k =
        some (mysqlUpdateFor t data ch)) := by
  have hmy : ∀ cs : List Change,
      mysqlUpdates t data cs = cs.map (mysqlUpdateFor t data) := by
    intro cs
    induction cs with
    | nil => rfl
    | cons c rest ih => simp [mysqlUpdates, ih]
  have hpg : ∀ cs : List Change,
      pgUpdates t schema data cs = cs.map (pgUpdateFor t schema data) := by
    intro cs
    induction cs with
    | nil => rfl
    | cons c rest ih => simp [pgUpdates, ih]
  refine ⟨hmy changes, hpg changes, by rw [hmy changes]; simp, ?_⟩
  intro k ch hk
  rw [hmy changes, List.get?_map, hk]
  rfl

/-- Witness for C5 (amended) on a concrete two-edit batch. -/
theorem one_update_per_pending_edit_witness :
    (mysqlUpdates "t" [[("a", "1")]]
        [{ rowIndex := 0, column := "a", newValue := "9", oldValue := "1" }]).get? 0 =
      some (mysqlUpdateFor "t" [[("a", "1")]]
        { rowIndex := 0, column := "a", newValue := "9", oldValue := "1" }) :=
  (one_update_per_pending_edit "t" none [[("a", "1")]]
      [{ rowIndex := 0, column := "a", newValue := "9", oldValue := "1" }]).2.2.2
    0 _ rfl

/-! ## Lemmas about the cell-key codec -/

theorem natChars_digits (n : Nat) : ∀ ch ∈ natChars n, ch.isDigit = true := by
  induction n using Nat.strong_induction_on with
  | _ n ih =>
    rw [natChars]
    split
    · intro ch hch
      simp only [List.mem_singleton] at hch
      subst hch
      rename_i h
      interval_cases n <;> decide
    · intro ch hch
      rename_i h
      rcases List.mem_append.mp hch with hm | hm
      · exact ih (n / 10) (Nat.div_lt_self (by omega) (by omega)) ch hm
      · simp only [List.mem_singleton] at hm
        subst hm
        have h10 : n % 10 < 10 := Nat.mod_lt n (by omega)
        set m := n % 10 with hm
        clear_value m
        interval_cases m <;> decide

theorem natChars_ne_nil (n : Nat) : natChars n ≠ [] := by
  rw [natChars]
  split
  · simp
  · simp

theorem natChars_foldl (n : Nat) : ∀ acc : Nat,
    (natChars n).foldl (fun a c => 10 * a + (c.toNat - 48)) acc =
      acc * 10 ^ (natChars n).length + n := by
  induction n using Nat.strong_induction_on with
  | _ n ih =>
    intro acc
    rw [natChars]
    split
    · rename_i h
      have hc : (Char.ofNat (48 + n)).toNat = 48 + n := by
        interval_cases n <;> decide
      simp [List.foldl, hc]
      omega
    · rename_i h
      rw [List.foldl_append]
      have h10 : n % 10 < 10 := Nat.mod_lt n (by omega)
      have hc : (Char.ofNat (48 + n % 10)).toNat = 48 + n % 10 := by
        set m := n % 10 with hm
        clear_value m
        interval_cases m <;> decide
      rw [ih (n / 10) (Nat.div_lt_self (by omega) (by omega)) acc]
      simp only [List.foldl, List.length_append, List.length_cons,
        List.length_nil, Nat.zero_add, hc]
      rw [pow_succ, ← mul_assoc]
      have hdm := Nat.div_add_mod n 10
      omega

/-- Roundtrip: `parseInt` inverts the decimal rendering. -/
theorem parseIntChars_natChars (n : Nat) :
    parseIntChars (natChars n) = some n := by
  unfold parseIntChars
  have hdig : (natChars n).takeWhile Char.isDigit = natChars n :=
    List.takeWhile_eq_self_iff.mpr (natChars_digits n)
  simp only [hdig]
  rw [if_neg (natChars_ne_nil n), natChars_foldl n 0]
  simp

theorem dash_not_mem_natChars (n : Nat) : '-' ∉ natChars n := by
  intro h
  have := natChars_digits n '-' h
  simp at this

theorem jsSplit_encodeKey (i : Nat) (c : List Char) :
    jsSplit '-' (encodeKey i c) = natChars i :: jsSplit '-' c := by
  unfold encodeKey
  exact jsSplit_append c (dash_not_mem_natChars i)

/-- C10: the pending-edit key is `rowIndex + '-' + columnName`, decoded in
`saveChanges` by splitting at `'-'`: for a column name containing no `'-'`,
decoding is the exact inverse of encoding — the reconstructed change carries
the same row index and column name the edit was made on (and the matching
original value); for a column name containing `'-'`, the decoded column is
only the substring before its first `'-'`, so the reconstructed change does
not name the edited column. -/
theorem cell_key_codec (i : Nat) (c : List Char) (rows : List GridRow)
    (v : List Char) :
    (¬ '-' ∈ c →
      decodePending rows (encodeKey i c, v) =
        { rowIndex := some i, column := some c, newValue := v,
          oldValue := origValue rows i c }) ∧
    ('-' ∈ c →
      (decodePending rows (encodeKey i c, v)).rowIndex = some i ∧
      (decodePending rows (encodeKey i c, v)).column =
        some (c.takeWhile (fun x => x ≠ '-')) ∧
      (decodePending rows (encodeKey i c, v)).column ≠ some c) := by
  have hsplit := jsSplit_encodeKey i c
  have h0 : (jsSplit '-' (encodeKey i c)).get? 0 = some (natChars i) := by
    rw [hsplit]
    rfl
  have h1 : (jsSplit '-' (encodeKey i c)).get? 1 =
      some (c.takeWhile (fun x => x ≠ '-')) := by
    rw [hsplit]
    simpa using @jsSplit_head '-' c
  constructor
  · intro hnd
    have htw : c.takeWhile (fun x => x ≠ '-') = c := by
      refine List.takeWhile_eq_self_iff.mpr ?_
      intro x hx
      simp only [ne_eq, decide_eq_true_eq]
      intro he
      exact hnd (he ▸ hx)
    simp only [decodePending, h0, h1, htw, Option.some_bind,
      parseIntChars_natChars]
  · intro hd
    refine ⟨?_, ?_, ?_⟩
    · simp only [decodePending, h0, Option.some_bind, parseIntChars_natChars]
    · simp only [decodePending, h1]
    · simp only [decodePending, h1, ne_eq, Option.some.injEq]
      intro heq
      have := List.takeWhile_eq_self_iff.mp heq '-' hd
      simp at this

/-- Witness for C10 at row 12, column `name` (no dash): decode is the exact
inverse. -/
theorem cell_key_codec_witness :
    decodePending [] (encodeKey 12 ("name".toList), ['x']) =
      { rowIndex := some 12, column := some ("name".toList), newValue := ['x'],
        oldValue := origValue [] 12 ("name".toList) } :=
  (cell_key_codec 12 ("name".toList) [] ['x']).1 (by decide)

/-! ## Lemmas about the pending-edit map -/

theorem find?_replace (m : List (List Char × List Char)) (k v : List Char)
    (h : m.any (fun p => p.1 = k) = true) :
    (m.map (fun p => if p.1 = k then (k, v) else p)).find?
      (fun p => p.1 = k) = some (k, v) := by
  induction m with
  | nil => simp at h
  | cons p rest ih =>
    by_cases hp : p.1 = k
    · simp [List.find?_cons, hp]
    · have h' : rest.any (fun p => p.1 = k) = true := by
        simpa [hp] using h
      simp [List.find?_cons, hp, ih h']

theorem find?_append_new (m : List (List Char × List Char)) (k v : List Char)
    (h : m.any (fun p => p.1 = k) = false) :
    (m ++ [(k, v)]).find? (fun p => p.1 = k) = some (k, v) := by
  induction m with
  | nil => simp [List.find?_cons]
  | cons p rest ih =>
    have hp : ¬ p.1 = k := by
      intro hpk
      simp [List.any_cons, hpk] at h
    have h' : rest.any (fun p => p.1 = k) = false := by
      simpa [hp] using h
    simp [List.find?_cons, hp, ih h']

/-- Semantics of `Map.set`: after recording an edit for key `k`, the lookup for
`k` yields exactly the new value — a later edit overwrites an earlier one for
the same key. -/
theorem mapSet_find? (m : List (List Char × List Char)) (k v : List Char) :
    (mapSet m k v).find? (fun p => p.1 = k) = some (k, v) := by
  unfold mapSet
  cases h : m.any (fun p => p.1 = k)
  · rw [if_neg (by simp)]
    exact find?_append_new m k v h
  · rw [if_pos rfl]
    exact find?_replace m k v h

/-- Preservation: `Map.set` keeps the key list duplicate-free. -/
theorem mapSet_keys_nodup (m : List (List Char × List Char)) (k v : List Char)
    (h : (m.map Prod.fst).Nodup) :
    ((mapSet m k v).map Prod.fst).Nodup := by
  unfold mapSet
  cases hany : m.any (fun p => p.1 = k)
  · rw [if_neg (by simp)]
    rw [List.map_append, List.nodup_append]
    refine ⟨h, by simp, ?_⟩
    intro a ha hb
    simp only [List.map_cons, List.map_nil, List.mem_singleton] at hb
    rcases List.mem_map.mp ha with ⟨p, hpm, rfl⟩
    have : m.any (fun q => q.1 = k) = true :=
      List.any_eq_true.mpr ⟨p, hpm, by simp [hb]⟩
    rw [hany] at this
    cases this
  · rw [if_pos rfl]
    have hkeys : (m.map (fun p => if p.1 = k then (k, v) else p)).map Prod.fst
        = m.map Prod.fst := by
      rw [List.map_map]
      apply List.map_congr_left
      intro p _
      by_cases hpk : p.1 = k
      · simp [hpk]
      · simp [hpk]
    rw [hkeys]
    exact h

/-- Every single grid event preserves distinctness of pending-edit keys. -/
theorem step_keys_nodup (tn : Option (List Char)) (rows : List GridRow)
    (st : GridState) (op : GridOp)
    (h : (st.pendingChanges.map Prod.fst).Nodup) :
    (((step tn rows st op).pendingChanges).map Prod.fst).Nodup := by
  cases op with
  | click i c value =>
    simp only [step]
    split
    · exact h
    · exact h
  | typeValue v => exact h
  | blur =>
    simp only [step]
    match st.editingCell with
    | some (i, c) =>
      simp only []
      split
      · exact mapSet_keys_nodup _ _ _ h
      · exact h
    | none => exact h
  | escape => exact h
  | saveSuccess => simp [step]
  | discard => simp [step]

/-- C9: the pending-edit collection holds at most one entry per cell key
at all times — from the initial state, every sequence of grid events
(recording edits on blur, clearing on save success, discarding) leaves the
key list duplicate-free — and recording an edit for a key that is already
present overwrites the earlier value in place. -/
theorem pending_edits_unique_per_key :
    (∀ (tn : Option (List Char)) (rows : List GridRow) (ops : List GridOp),
      (((runGrid tn rows initialGridState ops).pendingChanges).map
        Prod.fst).Nodup) ∧
    (∀ (m : List (List Char × List Char)) (k v : List Char),
      (m.map Prod.fst).Nodup → ((mapSet m k v).map Prod.fst).Nodup) ∧
    (∀ (m : List (List Char × List Char)) (k v : List Char),
      (mapSet m k v).find? (fun p => p.1 = k) = some (k, v)) := by
  refine ⟨?_, mapSet_keys_nodup, mapSet_find?⟩
  intro tn rows ops
  suffices hgen : ∀ (st : GridState), (st.pendingChanges.map Prod.fst).Nodup →
      (((runGrid tn rows st ops).pendingChanges).map Prod.fst).Nodup by
    exact hgen initialGridState (by simp [initialGridState])
  induction ops with
  | nil => exact fun st h => h
  | cons op rest ih =>
    intro st h
    exact ih (step tn rows st op) (step_keys_nodup tn rows st op h)

/-- Witness for C9: recording an edit for an already-present key keeps the
keys distinct and overwrites the value. -/
theorem pending_edits_unique_per_key_witness :
    ((mapSet [(['a'], ['1'])] ['a'] ['2']).map Prod.fst).Nodup :=
  pending_edits_unique_per_key.2.1 [(['a'], ['1'])] ['a'] ['2'] (by decide)

/-- With no inferred table name, no grid event can start an edit or record a
pending change: the click handler is gated and `handleCellBlur` never fires
with an active editing cell. -/
theorem runGrid_none_no_edits (rows : List GridRow) (ops : List GridOp) :
    ∀ st : GridState, st.editingCell = none → st.pendingChanges = [] →
      (runGrid none rows st ops).editingCell = none ∧
      (runGrid none rows st ops).pendingChanges = [] := by
  induction ops with
  | nil => exact fun st h1 h2 => ⟨h1, h2⟩
  | cons op rest ih =>
    intro st h1 h2
    refine ih (step none rows st op) ?_ ?_
    · cases op with
      | click i c value => simpa [step, Option.isSome] using h1
      | typeValue v => simpa [step] using h1
      | blur => rw [step, h1]
      | escape => simp [step]
      | saveSuccess => simpa [step] using h1
      | discard => rfl
    · cases op with
      | click i c value => simpa [step, Option.isSome] using h2
      | typeValue v => simpa [step] using h2
      | blur => rw [step, h1]; exact h2
      | escape => simpa [step] using h2
      | saveSuccess => rfl
      | discard => rfl

/-- C7: table-name inference scans the statement for a
`FROM`/`INTO`/`UPDATE` keyword followed by an identifier:
`SELECT * FROM customers WHERE id=1` infers `customers`; `SELECT 1` matches
nothing, and with no inferred table editing is disabled entirely for the
result set — starting from the initial grid state, no sequence of events can
put a cell into edit mode or create a pending edit, and `saveChanges` sends
nothing. -/
theorem table_inference_gates_editing :
    findTable ("SELECT * FROM customers WHERE id=1".toList) =
      some ("customers".toList) ∧
    findTable ("SELECT 1".toList) = none ∧
    (∀ (stmt : List Char) (rows : List GridRow) (ops : List GridOp),
      findTable stmt = none →
      (runGrid (findTable stmt) rows initialGridState ops).editingCell =
        none ∧
      (runGrid (findTable stmt) rows initialGridState ops).pendingChanges =
        []) ∧
    (∀ (stmt : List Char) (rows : List GridRow)
      (pending : List (List Char × List Char)),
      findTable stmt = none → saveChanges (findTable stmt) rows pending =
        none) := by
  refine ⟨by decide, by decide, ?_, ?_⟩
  · intro stmt rows ops h
    rw [h]
    exact runGrid_none_no_edits rows ops initialGridState rfl rfl
  · intro stmt rows pending h
    rw [h]
    unfold saveChanges
    cases pending with
    | nil => rfl
    | cons p rest => rfl

/-- Witness for C7: with the un-inferable statement `SELECT 1`, a click
followed by a blur leaves the grid without edits. -/
theorem table_inference_gates_editing_witness :
    (runGrid (findTable ("SELECT 1".toList)) []
        initialGridState [GridOp.click 0 ['a'] none, GridOp.blur]).editingCell =
      none ∧
    (runGrid (findTable ("SELECT 1".toList)) []
        initialGridState
        [GridOp.click 0 ['a'] none, GridOp.blur]).pendingChanges = [] :=
  table_inference_gates_editing.2.2.1 ("SELECT 1".toList) []
    [GridOp.click 0 ['a'] none, GridOp.blur] (by decide)

end MacDb
